import Mathlib

/-!
Verification of the filtering-and-scoring engine of
`src/website/streamlit_app.py` (open-esm-analysis).

The engine works on pandas Series/DataFrames of floating-point data where
`NaN` marks a missing value and division can produce infinities.  We embed
a pandas cell value as `PValue`: an exact rational, `nan`, or a signed
infinity, with the IEEE-754 rules for the arithmetic and comparisons the
source uses (`+`, `-`, `*`, `/`, `>=`, `<=`, `isna`).
-/

namespace OpenESM

/-- A pandas/NumPy float cell: a finite (exact rational) number, NaN
(also the encoding of a missing value), or a signed infinity. -/
inductive PValue where
  | num (q : ℚ)
  | nan
  | pinf
  | ninf
deriving DecidableEq, Repr

namespace PValue

/-- NaN test (`pd.isna` on a float cell). -/
def isNan : PValue → Bool
  | nan => true
  | _ => false

/-- Infinity test (not NaN, not finite). -/
def isInf : PValue → Bool
  | pinf => true
  | ninf => true
  | _ => false

/-- IEEE `<=` comparison: any comparison with NaN is false. -/
def vle : PValue → PValue → Bool
  | nan, _ => false
  | _, nan => false
  | ninf, _ => true
  | _, pinf => true
  | pinf, _ => false
  | _, ninf => false
  | num a, num b => a ≤ b

/-- IEEE `<` comparison: any comparison with NaN is false. -/
def vlt : PValue → PValue → Bool
  | nan, _ => false
  | _, nan => false
  | pinf, _ => false
  | ninf, ninf => false
  | ninf, _ => true
  | _, ninf => false
  | num _, pinf => true
  | num a, num b => a < b

/-- IEEE addition on embedded floats. -/
def padd : PValue → PValue → PValue
  | nan, _ => nan
  | _, nan => nan
  | pinf, ninf => nan
  | ninf, pinf => nan
  | pinf, _ => pinf
  | _, pinf => pinf
  | ninf, _ => ninf
  | _, ninf => ninf
  | num a, num b => num (a + b)

/-- IEEE subtraction on embedded floats. -/
def psub : PValue → PValue → PValue
  | nan, _ => nan
  | _, nan => nan
  | pinf, pinf => nan
  | ninf, ninf => nan
  | pinf, _ => pinf
  | _, pinf => ninf
  | ninf, _ => ninf
  | _, ninf => pinf
  | num a, num b => num (a - b)

/-- IEEE multiplication on embedded floats (`inf * 0 = nan`). -/
def pmul : PValue → PValue → PValue
  | nan, _ => nan
  | _, nan => nan
  | pinf, pinf => pinf
  | pinf, ninf => ninf
  | ninf, pinf => ninf
  | ninf, ninf => pinf
  | pinf, num b => if b > 0 then pinf else if b < 0 then ninf else nan
  | num a, pinf => if a > 0 then pinf else if a < 0 then ninf else nan
  | ninf, num b => if b > 0 then ninf else if b < 0 then pinf else nan
  | num a, ninf => if a > 0 then ninf else if a < 0 then pinf else nan
  | num a, num b => num (a * b)

/-- IEEE division on embedded floats: `0/0 = nan`, `x/0 = ±inf` for
nonzero finite `x`, `x/±inf = 0` for finite `x`, `inf/inf = nan`. -/
def pdiv : PValue → PValue → PValue
  | nan, _ => nan
  | _, nan => nan
  | pinf, pinf => nan
  | pinf, ninf => nan
  | ninf, pinf => nan
  | ninf, ninf => nan
  | num _, pinf => num 0
  | num _, ninf => num 0
  | pinf, num b => if b < 0 then ninf else pinf
  | ninf, num b => if b < 0 then pinf else ninf
  | num a, num b =>
      if b = 0 then (if a > 0 then pinf else if a < 0 then ninf else nan)
      else num (a / b)

end PValue

open PValue

/-- Binary minimum with pandas `skipna` behaviour: a NaN operand is
ignored (used to fold `Series.min()`). -/
def pmin2 (a b : PValue) : PValue :=
  if a.isNan then b else if b.isNan then a else if vle a b then a else b

/-- Binary maximum with pandas `skipna` behaviour: a NaN operand is
ignored (used to fold `Series.max()`). -/
def pmax2 (a b : PValue) : PValue :=
  if a.isNan then b else if b.isNan then a else if vle a b then b else a

/-- `Series.min()`: minimum over the non-NaN entries, NaN if none. -/
def pcolMin (l : List PValue) : PValue := l.foldr pmin2 .nan

/-- `Series.max()`: maximum over the non-NaN entries, NaN if none. -/
def pcolMax (l : List PValue) : PValue := l.foldr pmax2 .nan

/-- Row sum with pandas `DataFrame.sum(skipna=True)` behaviour: NaN
entries are dropped, the empty sum is `0.0`. -/
def sumSkipNa (l : List PValue) : PValue :=
  (l.filter (fun v => ¬ v.isNan)).foldr padd (.num 0)

/-!
Column classification (`is_datetime_column` / `is_numeric_column` /
`is_categorical_column` / `is_list_column`, lines 106-123 of the source,
and the `if`/`elif` dispatch of `main`, lines 589-621).

A pandas column is embedded as its stored dtype together with its cell
values; a cell is missing (`None` here, NaN/None there) or holds a Python
object: a list of labels, a string, a number, or some other object.
-/

/-- A Python value held in an object column cell. -/
inductive PyVal where
  | pylist (xs : List String)
  | pystr (s : String)
  | pynum (q : ℚ)
  | pyother
deriving DecidableEq, Repr

/-- The stored pandas dtype of a column, as far as the four dtype checks
of the source distinguish them. -/
inductive DType where
  | datetime
  | numeric
  | string
  | categorical
  | object
deriving DecidableEq, Repr

/-- A pandas column for classification purposes: its stored dtype and
its cell values (`none` = missing). -/
structure PCol where
  dtype : DType
  vals : List (Option PyVal)
deriving DecidableEq, Repr

/-- Source `is_datetime_column`: `pd.api.types.is_datetime64_any_dtype`. -/
def is_datetime_column (c : PCol) : Bool := c.dtype = DType.datetime

/-- Source `is_numeric_column`: `pd.api.types.is_numeric_dtype`. -/
def is_numeric_column (c : PCol) : Bool := c.dtype = DType.numeric

/-- Source `is_categorical_column`:
`isinstance(series.dtype, pd.StringDtype | pd.CategoricalDtype)`. -/
def is_categorical_column (c : PCol) : Bool :=
  c.dtype = DType.string ∨ c.dtype = DType.categorical

/-- Source `is_list_column`:
`all(series.dropna().apply(lambda x: isinstance(x, list)))` — every
non-missing value is a Python list (vacuously true when all missing). -/
def is_list_column (c : PCol) : Bool :=
  (c.vals.filterMap id).all (fun v => match v with | .pylist _ => true | _ => false)

/-- The four semantic column types of the engine. -/
inductive SemType where
  | datetime
  | numeric
  | categorical
  | list
deriving DecidableEq, Repr

/-- The `if`/`elif` dispatch of `main` (lines 589-621): the four checks
in order datetime, numeric, categorical, list.  The chain has no `else`
branch, so a column failing all four yields no classification (`none`)
and is silently given no filter. -/
def classify (c : PCol) : Option SemType :=
  if is_datetime_column c then some .datetime
  else if is_numeric_column c then some .numeric
  else if is_categorical_column c then some .categorical
  else if is_list_column c then some .list
  else none

/-!
The predicate library (source lines 126-207).  Numeric columns are
`List PValue` (NaN = missing); datetime columns are `List (Option ℚ)`
with timestamps measured in minutes (so a calendar date is a multiple
of 1440); categorical columns are `List (Option String)`; list columns
are `List (Option (List String))`.
-/

/-- Source `nan_filter`: `col.notna()`. -/
def nan_filter (col : List PValue) : List Bool :=
  col.map (fun v => ¬ v.isNan)

/-- Source `numeric_range_filter`:
`((col >= min_val) & (col <= max_val)) | col.isna()`, elementwise with
IEEE comparisons (any comparison against NaN is false).  The bounds are
themselves pandas floats (the slider can hand back NaN bounds on an
all-missing column). -/
def numeric_range_filter (col : List PValue) (min_val max_val : PValue) : List Bool :=
  col.map (fun v => (vle min_val v && vle v max_val) || v.isNan)

/-- Minutes per day: datetime values are rationals measured in minutes. -/
def minutesPerDay : ℚ := 1440

/-- Truncation of a timestamp to its calendar date (`Timestamp.date()`,
midnight of the same day): the greatest multiple of 1440 minutes below. -/
def dateOf (q : ℚ) : ℚ := minutesPerDay * ⌊q / minutesPerDay⌋

/-- Source `date_range_filter`: with `start_datetime = pd.Timestamp(start_date)`
and `end_datetime = pd.Timestamp(end_date) + pd.Timedelta(hours=23, minutes=59)`,
the mask is `((col >= start_datetime) & (col <= end_datetime)) | col.isna()`.
The date bounds are already calendar dates (multiples of 1440 minutes);
missing bounds (`NaT`, from an all-missing column) compare false. -/
def date_range_filter (col : List (Option ℚ)) (start_date end_date : Option ℚ) : List Bool :=
  col.map (fun v =>
    match v, start_date, end_date with
    | none, _, _ => true
    | some x, some s, some e => decide (s ≤ x) && decide (x ≤ e + (minutesPerDay - 1))
    | some _, _, _ => false)

/-- Source `categorical_filter`: `col.isin(to_filter) | col.isna()`. -/
def categorical_filter (col : List (Option String)) (to_filter : List String) : List Bool :=
  col.map (fun v =>
    match v with
    | none => true
    | some s => to_filter.contains s)

/-- Source `list_filter`:
`col.dropna().apply(lambda x: any(i in x for i in to_filter)).reindex(col.index).fillna(True)`.
Rowwise this is: a present list `x` maps to `any(i in x for i in to_filter)`;
a missing row is dropped by `dropna`, reappears as NaN after `reindex`, and
becomes `True` through `fillna(True)`. -/
def list_filter (col : List (Option (List String))) (to_filter : List String) : List Bool :=
  col.map (fun v =>
    match v with
    | none => true
    | some x => to_filter.any (fun i => x.contains i))

/-!
The normaliser (source `normalise`, lines 262-277) and the scorer
(source `update_score_col`, lines 245-259).  A numeric dataframe is a
list of columns, each a `List PValue` of one shared row count.
-/

/-- The `Literal["min-max", "rank"]` scaling-method argument. -/
inductive ScalingMethod where
  | minmax
  | rank
deriving DecidableEq, Repr

/-- One column of `(df - df.min()) / (df.max() - df.min())`: elementwise
IEEE arithmetic against the column's own (NaN-skipping) min and max.  On
a constant column this divides `0.0` by `0.0`, giving NaN. -/
def minmaxCol (col : List PValue) : List PValue :=
  col.map (fun v => pdiv (psub v (pcolMin col)) (psub (pcolMax col) (pcolMin col)))

/-- The pandas `Series.rank()` value of one cell (default arguments:
`method="average"`, ascending): NaN ranks as NaN; a non-NaN value `v`
ranks as (number of entries below `v`) plus the average position inside
its tied group, i.e. `count_lt + (count_eq + 1) / 2`. -/
def rankOf (col : List PValue) (v : PValue) : PValue :=
  if v.isNan then .nan
  else
    .num ((col.filter (fun y => vlt y v)).length
      + ((col.filter (fun y => y = v)).length + 1) / 2)

/-- One column of `df.rank() / df.rank().max()`. -/
def rankCol (col : List PValue) : List PValue :=
  let ranks := col.map (rankOf col)
  ranks.map (fun r => pdiv r (pcolMax ranks))

/-- Source `normalise` (lines 262-277): dispatch on the scaling method,
each column scaled relative to its own data. -/
def normalise (df : List (List PValue)) (method : ScalingMethod) : List (List PValue) :=
  match method with
  | .minmax => df.map minmaxCol
  | .rank => df.map rankCol

/-- Source `update_score_col` (lines 245-259):
`normalise(df, method).mul(scores).div(sum(scores.values())).sum(axis=1).mul(100)`.
`scores` maps each column of `df` to its weight (session default `0.5`),
so `.mul(scores)` aligns weights to columns positionally here.  The row
count `nrows` is the dataframe's (pandas keeps it even with zero
columns); `.sum(axis=1)` skips NaN cells and sums an all-NaN or empty
row to `0.0`. -/
def update_score_col (nrows : ℕ) (df : List (List PValue)) (weights : List ℚ)
    (method : ScalingMethod) : List PValue :=
  let normalised := normalise df method
  let weighted := List.zipWith (fun col w => col.map (fun v => pmul v (.num w))) normalised weights
  let divided := weighted.map (fun col => col.map (fun v => pdiv v (.num weights.sum)))
  let summed := (List.range nrows).map
    (fun i => sumSkipNa (divided.filterMap (fun col => col.get? i)))
  summed.map (fun v => pmul v (.num 100))

/-!
The filtering pass of `main` (source lines 563-627) at the data-derived
defaults: every slider at its column's full `(min, max)` range, every
multiselect at the full unique-value set, every exclude-missing toggle
off, score weights at their `0.5` default and the `min-max` scaling
method (the session-state defaults of `update_score_col`).

A filterable column is one of the four dispatch outcomes of the
`if`/`elif` chain; the table also carries the `Docs` column (missing-value
toggle only) and the placeholder `Score` column whose full range seeds
the score slider before `Score` is recomputed.  Rows are tracked by
index: the pass returns the list of kept row indices in order.
-/

/-- `Series.min()` on a datetime column: minimum of the present
timestamps, `NaT` (`none`) if there are none. -/
def colMinQ (l : List (Option ℚ)) : Option ℚ :=
  match l.filterMap id with
  | [] => none
  | x :: xs => some (xs.foldl min x)

/-- `Series.max()` on a datetime column: maximum of the present
timestamps, `NaT` (`none`) if there are none. -/
def colMaxQ (l : List (Option ℚ)) : Option ℚ :=
  match l.filterMap id with
  | [] => none
  | x :: xs => some (xs.foldl max x)

/-- A filterable table column as the dispatch of `main` sees it: the
constructor records which of the four dtype checks succeeds first. -/
inductive TCol where
  | dcol (vals : List (Option ℚ))
  | ncol (vals : List PValue)
  | ccol (vals : List (Option String))
  | lcol (vals : List (Option (List String)))
deriving DecidableEq, Repr

/-- Row count of a filterable column. -/
def TCol.len : TCol → ℕ
  | .dcol vals => vals.length
  | .ncol vals => vals.length
  | .ccol vals => vals.length
  | .lcol vals => vals.length

/-- The table handed to `main`: the `Docs` link column, the placeholder
`Score` column, and the filterable columns in `COLUMN_NAME_MAPPING`
order. -/
structure Table where
  docs : List (Option String)
  score : List PValue
  cols : List TCol
deriving DecidableEq, Repr

/-- Restriction of a column to a list of kept row indices (the effect of
`df_filtered = df_filtered[mask]` on a later column lookup). -/
def restrict (vals : List PValue) (kept : List ℕ) : List PValue :=
  kept.filterMap (fun i => vals.get? i)

/-- `sorted(df[col].dropna().unique().tolist())` as a membership set:
the distinct present values (sorting does not change `isin`). -/
def uniqueVals (vals : List (Option String)) : List String :=
  (vals.filterMap id).dedup

/-- `list(set(i for j in df[col].dropna().values for i in j))` as a
membership set: the distinct labels occurring in any present list. -/
def uniqueItems (vals : List (Option (List String))) : List String :=
  ((vals.filterMap id).flatten).dedup

/-- One step of the filtering loop of `main` (lines 583-621) at default
widget state: the slider hands back the full-column default range (for a
datetime column truncated to dates by `.date()`), the multiselect hands
back the full unique-value set, the exclude-missing toggle is off; the
mask is evaluated on the rows kept so far and the numeric columns are
collected for scoring.  An out-of-range row index reads as a missing
cell (it never occurs on well-formed tables). -/
def filterStep (acc : List ℕ × List (List PValue)) (c : TCol) :
    List ℕ × List (List PValue) :=
  match c with
  | .dcol vals =>
      (acc.1.filter (fun i =>
        match vals.getD i none, (colMinQ vals).map dateOf, (colMaxQ vals).map dateOf with
        | none, _, _ => true
        | some x, some s, some e => decide (s ≤ x) && decide (x ≤ e + (minutesPerDay - 1))
        | some _, _, _ => false), acc.2)
  | .ncol vals =>
      (acc.1.filter (fun i =>
        let v := vals.getD i .nan
        (vle (pcolMin vals) v && vle v (pcolMax vals)) || v.isNan),
       acc.2 ++ [vals])
  | .ccol vals =>
      (acc.1.filter (fun i =>
        match vals.getD i none with
        | none => true
        | some s => (uniqueVals vals).contains s), acc.2)
  | .lcol vals =>
      (acc.1.filter (fun i =>
        match vals.getD i none with
        | none => true
        | some x => (uniqueItems vals).any (fun lbl => x.contains lbl)), acc.2)

/-- Kept row indices and collected numeric columns after the per-column
filtering loop of `main`, starting from all rows (the `Docs`
exclude-missing toggle is off at defaults, so it filters nothing). -/
def afterColumnFilters (t : Table) : List ℕ × List (List PValue) :=
  t.cols.foldl filterStep (List.range t.score.length, [])

/-- The recomputed `Score` column (line 624):
`update_score_col(df_filtered[numeric_cols])` on the filtered rows, with
the default weight `0.5` per numeric column and the default `min-max`
method. -/
def scoreRecomputed (t : Table) : List PValue :=
  let (kept, ncols) := afterColumnFilters t
  update_score_col kept.length (ncols.map (fun vals => restrict vals kept))
    (ncols.map (fun _ => (1 : ℚ) / 2)) .minmax

/-- The full default filtering pass of `main` (lines 563-627): per-column
filters at defaults, then the recomputed `Score` filtered against the
score slider's default range, which is the `(min, max)` of the
*placeholder* `Score` column of the input (line 581 runs before the
recomputation).  Returns the kept row indices in order. -/
def mainFilterDefaults (t : Table) : List ℕ :=
  let (kept, _) := afterColumnFilters t
  let newScore := scoreRecomputed t
  ((kept.zip newScore).filter (fun p =>
      (vle (pcolMin t.score) p.2 && vle p.2 (pcolMax t.score)) || p.2.isNan)).map
    Prod.fst

/-!
Interaction state and reset (source `reset` lines 348-368, `slider`
lines 280-320, `multiselect` lines 323-345,
`header_and_missing_value_toggle` lines 371-397).

Every widget follows the same pattern: its value for the pass is its
data-derived default when the pass is in reset mode, otherwise the
stored session value (falling back to the default when none is stored).
`reset()` at the top of `main` reads the session flag and clears it;
`reset(button)` at the bottom sets the flag (and reruns) exactly when
the reset button was pressed.
-/

/-- A widget of the sidebar, carrying the column data its default is
derived from. -/
inductive WidgetSpec where
  | numSlider (col : List PValue)
  | dateSlider (col : List (Option ℚ))
  | catSelect (col : List (Option String))
  | listSelect (col : List (Option (List String)))
  | nanToggle
deriving DecidableEq, Repr

/-- A value a sidebar widget can take. -/
inductive WidgetVal where
  | range (lo hi : PValue)
  | drange (lo hi : Option ℚ)
  | selection (items : List String)
  | toggle (b : Bool)
deriving DecidableEq, Repr

/-- The data-derived default of each widget: the full `(min, max)` range
for sliders (dates truncated by `.date()`), the full unique-value set
for multiselects, `False` for the exclude-missing toggle. -/
def defaultVal : WidgetSpec → WidgetVal
  | .numSlider col => .range (pcolMin col) (pcolMax col)
  | .dateSlider col => .drange ((colMinQ col).map dateOf) ((colMaxQ col).map dateOf)
  | .catSelect col => .selection (uniqueVals col)
  | .listSelect col => .selection (uniqueItems col)
  | .nanToggle => .toggle false

/-- The `default if reset_mode else st.session_state.get(key, default)`
pattern shared by `slider`, `multiselect` and
`header_and_missing_value_toggle`. -/
def widgetValue (reset_mode : Bool) (w : WidgetSpec) (stored : Option WidgetVal) : WidgetVal :=
  if reset_mode then defaultVal w else stored.getD (defaultVal w)

/-- One rendering pass of `main` as seen by the interaction state:
entering with session flag `flag`, the top-of-pass `reset()` consumes
and clears it, every widget takes `widgetValue` of that mode, and the
bottom-of-pass `reset(button_press)` leaves the flag set exactly when
the reset button was pressed during the pass (triggering a rerun).
Returns the flag stored for the next pass and the widget values used. -/
def renderPass (flag : Bool) (widgets : List WidgetSpec)
    (stored : List (Option WidgetVal)) (button_press : Bool) :
    Bool × List WidgetVal :=
  let reset_mode := flag
  let values := List.zipWith (widgetValue reset_mode) widgets stored
  (button_press, values)

/-!
Helper lemmas: the IEEE comparison `vle` is reflexive, transitive and
total away from NaN, and the skipna folds `pcolMin` / `pcolMax` bound
every non-NaN entry of a column.
-/

theorem vle_not_nan_left {a b : PValue} (h : vle a b = true) : a.isNan = false := by
  cases a <;> cases b <;> simp_all [vle, PValue.isNan]

theorem vle_not_nan_right {a b : PValue} (h : vle a b = true) : b.isNan = false := by
  cases a <;> cases b <;> simp_all [vle, PValue.isNan]

theorem vle_refl {a : PValue} (h : a.isNan = false) : vle a a = true := by
  cases a <;> simp_all [vle, PValue.isNan]

theorem vle_trans {a b c : PValue} (h1 : vle a b = true) (h2 : vle b c = true) :
    vle a c = true := by
  cases a <;> cases b <;> cases c <;> simp_all [vle]
  linarith

theorem vle_total {a b : PValue} (ha : a.isNan = false) (hb : b.isNan = false) :
    vle a b = true ∨ vle b a = true := by
  cases a <;> cases b <;> simp_all [vle, PValue.isNan]
  exact le_total _ _

theorem pmin2_le_left {a b : PValue} (ha : a.isNan = false) :
    vle (pmin2 a b) a = true := by
  unfold pmin2
  rw [ha]
  by_cases hb : b.isNan = true
  · simp [hb, vle_refl ha]
  · rw [Bool.not_eq_true] at hb
    simp only [hb, if_false, if_true]
    by_cases hab : vle a b = true
    · simp [hab, vle_refl ha]
    · rcases vle_total ha hb with h | h
      · exact absurd h hab
      · simp [hab, h]

theorem pmin2_le_right {a b : PValue} (hb : b.isNan = false) :
    vle (pmin2 a b) b = true := by
  unfold pmin2
  by_cases ha : a.isNan = true
  · simp [ha, vle_refl hb]
  · rw [Bool.not_eq_true] at ha
    simp only [ha, hb, if_false]
    by_cases hab : vle a b = true
    · simp [hab]
    · simp [hab, vle_refl hb]

theorem pmax2_ge_left {a b : PValue} (ha : a.isNan = false) :
    vle a (pmax2 a b) = true := by
  unfold pmax2
  rw [ha]
  by_cases hb : b.isNan = true
  · simp [hb, vle_refl ha]
  · rw [Bool.not_eq_true] at hb
    simp only [hb, if_false, if_true]
    by_cases hab : vle a b = true
    · simp [hab]
    · simp [hab, vle_refl ha]

theorem pmax2_ge_right {a b : PValue} (hb : b.isNan = false) :
    vle b (pmax2 a b) = true := by
  unfold pmax2
  by_cases ha : a.isNan = true
  · simp [ha, vle_refl hb]
  · rw [Bool.not_eq_true] at ha
    simp only [ha, hb, if_false]
    by_cases hab : vle a b = true
    · simp [hab, vle_refl hb]
    · rcases vle_total ha hb with h | h
      · exact absurd h hab
      · simp [hab, h]

theorem pcolMin_le {l : List PValue} {v : PValue} (hv : v ∈ l) (hnan : v.isNan = false) :
    vle (pcolMin l) v = true := by
  induction l with
  | nil => cases hv
  | cons x xs ih =>
      rcases List.mem_cons.mp hv with rfl | hmem
      · exact pmin2_le_left hnan
      · have h1 := ih hmem
        have h2 : vle (pmin2 x (pcolMin xs)) (pcolMin xs) = true :=
          pmin2_le_right (vle_not_nan_left h1)
        exact vle_trans h2 h1

theorem pcolMax_ge {l : List PValue} {v : PValue} (hv : v ∈ l) (hnan : v.isNan = false) :
    vle v (pcolMax l) = true := by
  induction l with
  | nil => cases hv
  | cons x xs ih =>
      rcases List.mem_cons.mp hv with rfl | hmem
      · exact pmax2_ge_left hnan
      · have h1 := ih hmem
        have h2 : vle (pcolMax xs) (pmax2 x (pcolMax xs)) = true :=
          pmax2_ge_right (vle_not_nan_right h1)
        exact vle_trans h1 h2

theorem pcolMax_num_mem {l : List PValue} (hne : l ≠ [])
    (hq : ∀ v ∈ l, ∃ q, v = PValue.num q) :
    ∃ M, pcolMax l = PValue.num M ∧ PValue.num M ∈ l := by
  induction l with
  | nil => exact absurd rfl hne
  | cons x xs ih =>
      obtain ⟨qx, rfl⟩ := hq x (List.mem_cons_self _ _)
      cases xs with
      | nil =>
          exact ⟨qx, rfl, List.mem_cons_self _ _⟩
      | cons y ys =>
          obtain ⟨M, hM, hmem⟩ := ih (List.cons_ne_nil y ys)
            (fun v hv => hq v (List.mem_cons_of_mem _ hv))
          have : pcolMax (PValue.num qx :: y :: ys) = pmax2 (PValue.num qx) (pcolMax (y :: ys)) := rfl
          rw [this, hM]
          unfold pmax2
          simp only [PValue.isNan, if_false]
          by_cases h : vle (PValue.num qx) (PValue.num M) = true
          · exact ⟨M, by simp [h], List.mem_cons_of_mem _ hmem⟩
          · exact ⟨qx, by simp [h], List.mem_cons_self _ _⟩

theorem sumSkipNa_num (qs : List ℚ) :
    sumSkipNa (qs.map PValue.num) = PValue.num qs.sum := by
  induction qs with
  | nil => rfl
  | cons q rest ih =>
      have h : sumSkipNa (PValue.num q :: rest.map PValue.num)
          = padd (PValue.num q) (sumSkipNa (rest.map PValue.num)) := rfl
      simp only [List.map_cons, h, ih, padd, List.sum_cons]

theorem foldl_min_le (xs : List ℚ) (a : ℚ) :
    xs.foldl min a ≤ a ∧ ∀ x ∈ xs, xs.foldl min a ≤ x := by
  induction xs generalizing a with
  | nil => exact ⟨le_refl a, fun x hx => absurd hx (List.not_mem_nil x)⟩
  | cons y ys ih =>
      obtain ⟨h1, h2⟩ := ih (min a y)
      refine ⟨le_trans h1 (min_le_left a y), fun x hx => ?_⟩
      rcases List.mem_cons.mp hx with rfl | hmem
      · exact le_trans h1 (min_le_right a x)
      · exact h2 x hmem

theorem foldl_max_ge (xs : List ℚ) (a : ℚ) :
    a ≤ xs.foldl max a ∧ ∀ x ∈ xs, x ≤ xs.foldl max a := by
  induction xs generalizing a with
  | nil => exact ⟨le_refl a, fun x hx => absurd hx (List.not_mem_nil x)⟩
  | cons y ys ih =>
      obtain ⟨h1, h2⟩ := ih (max a y)
      refine ⟨le_trans (le_max_left a y) h1, fun x hx => ?_⟩
      rcases List.mem_cons.mp hx with rfl | hmem
      · exact le_trans (le_max_right a x) h1
      · exact h2 x hmem

theorem colMinQ_le {l : List (Option ℚ)} {m x : ℚ}
    (hm : colMinQ l = some m) (hx : some x ∈ l) : m ≤ x := by
  have hx' : x ∈ l.filterMap id := List.mem_filterMap.mpr ⟨some x, hx, rfl⟩
  unfold colMinQ at hm
  cases hl : l.filterMap id with
  | nil => rw [hl] at hx'; cases hx'
  | cons y ys =>
      rw [hl] at hm hx'
      obtain rfl : ys.foldl min y = m := by simpa using hm
      rcases List.mem_cons.mp hx' with rfl | hmem
      · exact (foldl_min_le ys x).1
      · exact (foldl_min_le ys y).2 x hmem

theorem colMaxQ_ge {l : List (Option ℚ)} {m x : ℚ}
    (hm : colMaxQ l = some m) (hx : some x ∈ l) : x ≤ m := by
  have hx' : x ∈ l.filterMap id := List.mem_filterMap.mpr ⟨some x, hx, rfl⟩
  unfold colMaxQ at hm
  cases hl : l.filterMap id with
  | nil => rw [hl] at hx'; cases hx'
  | cons y ys =>
      rw [hl] at hm hx'
      obtain rfl : ys.foldl max y = m := by simpa using hm
      rcases List.mem_cons.mp hx' with rfl | hmem
      · exact (foldl_max_ge ys x).1
      · exact (foldl_max_ge ys y).2 x hmem

theorem colMinQ_isSome {l : List (Option ℚ)} {x : ℚ} (hx : some x ∈ l) :
    ∃ m, colMinQ l = some m := by
  have hx' : x ∈ l.filterMap id := List.mem_filterMap.mpr ⟨some x, hx, rfl⟩
  unfold colMinQ
  cases hl : l.filterMap id with
  | nil => rw [hl] at hx'; cases hx'
  | cons y ys => exact ⟨ys.foldl min y, rfl⟩

theorem colMaxQ_isSome {l : List (Option ℚ)} {x : ℚ} (hx : some x ∈ l) :
    ∃ m, colMaxQ l = some m := by
  have hx' : x ∈ l.filterMap id := List.mem_filterMap.mpr ⟨some x, hx, rfl⟩
  unfold colMaxQ
  cases hl : l.filterMap id with
  | nil => rw [hl] at hx'; cases hx'
  | cons y ys => exact ⟨ys.foldl max y, rfl⟩

theorem dateOf_le (q : ℚ) : dateOf q ≤ q := by
  unfold dateOf minutesPerDay
  have h1 : ((⌊q / 1440⌋ : ℤ) : ℚ) ≤ q / 1440 := Int.floor_le _
  have h2 : (1440 : ℚ) * ((⌊q / 1440⌋ : ℤ) : ℚ) ≤ 1440 * (q / 1440) := by
    apply mul_le_mul_of_nonneg_left h1
    norm_num
  calc (1440 : ℚ) * ((⌊q / 1440⌋ : ℤ) : ℚ) ≤ 1440 * (q / 1440) := h2
    _ = q := by ring

/-!
Row-level computation of the scorer on finite data: multiplying a row of
finite normalised values by finite weights, dividing by a nonzero weight
sum and summing (skipna) is exact rational arithmetic.
-/

theorem divided_row (qs : List (List ℚ)) (ws : List ℚ) (S : ℚ) (hS : S ≠ 0)
    (i n : ℕ) (hlen : ∀ c ∈ qs, c.length = n) (hi : i < n) :
    sumSkipNa (((List.zipWith (fun col w => col.map (fun v => pmul v (PValue.num w)))
          (qs.map (fun c => c.map PValue.num)) ws).map
        (fun col => col.map (fun v => pdiv v (PValue.num S)))).filterMap
      (fun col => col.get? i))
    = PValue.num ((List.zipWith (fun c w => w * c.getD i 0) qs ws).sum / S) := by
  induction qs generalizing ws with
  | nil =>
      simp [sumSkipNa]
  | cons c qs' ih =>
      cases ws with
      | nil => simp [sumSkipNa]
      | cons w ws' =>
          have hc : c.length = n := hlen c (List.mem_cons_self _ _)
          have hget : c.get? i = some (c.getD i 0) := by
            cases hg : c.get? i with
            | none =>
                have := List.get?_eq_none.mp hg
                omega
            | some a =>
                rw [List.get?_eq_getElem?] at hg
                simp [List.getD, hg]
          simp only [List.map_cons, List.zipWith_cons_cons]
          have hhead : (((c.map PValue.num).map (fun v => pmul v (PValue.num w))).map
              (fun v => pdiv v (PValue.num S))).get? i
              = some (PValue.num (c.getD i 0 * w / S)) := by
            have hget' := hget
            rw [List.get?_eq_getElem?] at hget'
            simp only [List.map_map, List.get?_eq_getElem?, List.getElem?_map, hget',
              Option.map_some]
            simp [Function.comp, pmul, pdiv, hS]
          rw [@List.filterMap_cons_some (List PValue) PValue (fun col => col.get? i) _ _ _ hhead]
          have htail := ih ws' (fun c' hc' => hlen c' (List.mem_cons_of_mem _ hc'))
          have hcons : sumSkipNa (PValue.num (c.getD i 0 * w / S) ::
              ((List.zipWith (fun col w => col.map (fun v => pmul v (PValue.num w)))
                  (qs'.map (fun c => c.map PValue.num)) ws').map
                (fun col => col.map (fun v => pdiv v (PValue.num S)))).filterMap
              (fun col => col.get? i))
              = padd (PValue.num (c.getD i 0 * w / S))
                (sumSkipNa (((List.zipWith (fun col w => col.map (fun v => pmul v (PValue.num w)))
                    (qs'.map (fun c => c.map PValue.num)) ws').map
                  (fun col => col.map (fun v => pdiv v (PValue.num S)))).filterMap
                (fun col => col.get? i))) := rfl
          rw [hcons, htail]
          simp only [padd, List.zipWith_cons_cons, List.sum_cons]
          congr 1
          field_simp
          ring

/-- Length of the scorer output: one score per row. -/
theorem update_score_col_length (n : ℕ) (df : List (List PValue)) (w : List ℚ)
    (m : ScalingMethod) : (update_score_col n df w m).length = n := by
  simp [update_score_col]

/-- C1: for a table of numeric columns whose normalisation is free of
missing values (all normalised cells are finite rationals `qs`) and a
weight mapping with nonzero weight sum, `update_score_col` returns, for
each row `i`, `100 * Σ over columns c of (w_c * normalized_value_c_i)
divided by Σ of w_c`. -/
theorem update_score_col_weighted_average (n : ℕ) (df : List (List PValue))
    (weights : List ℚ) (method : ScalingMethod) (qs : List (List ℚ))
    (hN : normalise df method = qs.map (fun c => c.map PValue.num))
    (hlen : ∀ c ∈ qs, c.length = n)
    (hS : weights.sum ≠ 0)
    (i : ℕ) (hi : i < n) :
    (update_score_col n df weights method).get? i
      = some (PValue.num (100 *
          (List.zipWith (fun c w => w * c.getD i 0) qs weights).sum / weights.sum)) := by
  simp only [update_score_col, hN]
  rw [List.get?_eq_getElem?]
  simp only [List.getElem?_map, List.getElem?_range, hi, if_pos, Option.map_some,
    Option.map_some']
  rw [divided_row qs weights weights.sum hS i n hlen hi]
  simp only [pmul, Option.some_inj, PValue.num.injEq]
  ring

/-- C1 witness: a single column whose min-max normalised values are
`[0, 0.8, 1]`, with weight `1.0`: the row with normalised value `0.8`
scores exactly `80.0`. -/
theorem update_score_col_weighted_average_witness :
    (update_score_col 3 [[PValue.num 0, PValue.num (4/5), PValue.num 1]] [1]
      ScalingMethod.minmax).get? 1 = some (PValue.num 80) := by
  have h := update_score_col_weighted_average 3
    [[PValue.num 0, PValue.num (4/5), PValue.num 1]] [1] ScalingMethod.minmax
    [[0, 4/5, 1]]
    (by norm_num [normalise, minmaxCol, pcolMin, pcolMax, pmin2, pmax2, PValue.isNan,
      vle, psub, pdiv])
    (by norm_num) (by norm_num) 1 (by norm_num)
  refine h.trans ?_
  norm_num [List.zipWith_cons_cons, List.getD]

/-- C2: on a zero-variance (constant) column, min-max normalisation does
not raise any error: `(df - df.min()) / (df.max() - df.min())` divides
`0.0` by `0.0` and silently returns NaN for every entry (there is no
`DegenerateNormalizationError` anywhere in the code).  On `[0, 10, 20]`
the same method yields `[0, 0.5, 1]` as the spec states. -/
theorem normalise_minmax_constant_nan :
    normalise [[PValue.num 5, PValue.num 5]] ScalingMethod.minmax
      = [[PValue.nan, PValue.nan]]
    ∧ normalise [[PValue.num 0, PValue.num 10, PValue.num 20]] ScalingMethod.minmax
      = [[PValue.num 0, PValue.num (1/2), PValue.num 1]] := by
  constructor <;>
    norm_num [normalise, minmaxCol, pcolMin, pcolMax, pmin2, pmax2, PValue.isNan,
      vle, psub, pdiv]

/-- C3: with every weight zero, `update_score_col` does not fail: each
weighted cell is `0.0`, dividing by the zero weight sum turns it into
NaN, and `.sum(axis=1, skipna=True)` silently drops the NaNs, so the
scorer returns the all-zero default score vector (there is no
`ZeroWeightScoringError` anywhere in the code). -/
theorem update_score_col_zero_weights :
    update_score_col 2 [[PValue.num 0, PValue.num 1]] [0] ScalingMethod.minmax
      = [PValue.num 0, PValue.num 0] := by
  norm_num [update_score_col, normalise, minmaxCol, pcolMin, pcolMax, pmin2, pmax2,
    PValue.isNan, vle, psub, pdiv, pmul, padd, sumSkipNa, List.range_succ,
    List.filterMap_cons, List.filter_cons, List.get?_eq_getElem?]

/-- C4: a column failing all four type checks (here an object-dtype
column holding a non-list, non-string Python object) is not reported:
the `if`/`elif` chain of `main` has no `else` branch, so `classify`
returns `none` and the column is silently left unfiltered (no
`UnclassifiableColumnError` exists in the code). -/
theorem classify_unclassifiable_silent :
    is_datetime_column ⟨DType.object, [some PyVal.pyother]⟩ = false
    ∧ is_numeric_column ⟨DType.object, [some PyVal.pyother]⟩ = false
    ∧ is_categorical_column ⟨DType.object, [some PyVal.pyother]⟩ = false
    ∧ is_list_column ⟨DType.object, [some PyVal.pyother]⟩ = false
    ∧ classify ⟨DType.object, [some PyVal.pyother]⟩ = none := by
  decide

/-- C5: for bounds `min_val <= max_val` and a column free of infinities,
the `numeric_range_filter` mask is true at a row exactly when the row's
value is missing (NaN) or present and inside `[min_val, max_val]`. -/
theorem numeric_range_filter_spec (col : List PValue) (min_val max_val : ℚ)
    (_hb : min_val ≤ max_val) (hfin : ∀ v ∈ col, v.isInf = false)
    (i : ℕ) (v : PValue) (hv : col.get? i = some v) :
    ((numeric_range_filter col (PValue.num min_val) (PValue.num max_val)).get? i
        = some true
      ↔ (v.isNan = true ∨ ∃ q, v = PValue.num q ∧ min_val ≤ q ∧ q ≤ max_val)) := by
  have hmem : v ∈ col := List.get?_mem hv
  unfold numeric_range_filter
  rw [List.get?_eq_getElem?] at hv ⊢
  rw [List.getElem?_map, hv]
  cases v with
  | nan => simp [PValue.isNan, vle]
  | num q => simp [PValue.isNan, vle]
  | pinf => exact absurd (hfin _ hmem) (by simp [PValue.isInf])
  | ninf => exact absurd (hfin _ hmem) (by simp [PValue.isInf])

/-- C5 witness: value `3` with bounds `[0, 5]` passes the filter. -/
theorem numeric_range_filter_spec_witness :
    (numeric_range_filter [PValue.num 3, PValue.nan] (PValue.num 0)
      (PValue.num 5)).get? 0 = some true :=
  (numeric_range_filter_spec [PValue.num 3, PValue.nan] 0 5 (by norm_num)
    (by decide) 0 (PValue.num 3) rfl).mpr
    (Or.inr ⟨3, rfl, by norm_num, by norm_num⟩)

/-- C6: `list_filter` with an empty allowed set is false at every
present row (`any` over the empty set never matches) and true at every
missing row (dropped by `dropna`, refilled `True` by `fillna`). -/
theorem list_filter_empty_allowed (col : List (Option (List String))) :
    list_filter col [] = col.map (fun v => v.isNone) := by
  induction col with
  | nil => rfl
  | cons v rest ih =>
      cases v <;> simp [list_filter] at ih ⊢ <;> exact ih

/-- Every cell of a column ranks at least `1`: the tied group of a
present value contains the value itself. -/
theorem rankOf_num {col : List PValue} {q : ℚ} (hx : PValue.num q ∈ col) :
    ∃ r, rankOf col (PValue.num q) = PValue.num r ∧ 1 ≤ r := by
  unfold rankOf
  simp only [PValue.isNan, if_false, Bool.false_eq_true]
  refine ⟨_, rfl, ?_⟩
  have hmemf : PValue.num q ∈ col.filter (fun y => y = PValue.num q) :=
    List.mem_filter.mpr ⟨hx, by simp⟩
  have hpos : 1 ≤ (col.filter (fun y => y = PValue.num q)).length :=
    List.length_pos.mpr (List.ne_nil_of_mem hmemf)
  have hcast : (1 : ℚ) ≤ ((col.filter (fun y => y = PValue.num q)).length : ℚ) := by
    exact_mod_cast hpos
  have hlt : (0 : ℚ) ≤ ((col.filter (fun y => vlt y (PValue.num q))).length : ℚ) := by
    positivity
  linarith

/-- C7: rank normalisation divides each value's tie-averaged ascending
rank by the maximum rank; on an all-present numeric dataframe every
output lies in `(0, 1]`, and on the column `[10, 10, 30]` it returns
exactly `[0.5, 0.5, 1.0]`. -/
theorem normalise_rank_spec (df : List (List PValue))
    (h : ∀ col ∈ df, col ≠ [] ∧ ∀ v ∈ col, ∃ q, v = PValue.num q) :
    (∀ col' ∈ normalise df ScalingMethod.rank, ∀ v ∈ col',
        ∃ q, v = PValue.num q ∧ 0 < q ∧ q ≤ 1)
    ∧ normalise [[PValue.num 10, PValue.num 10, PValue.num 30]] ScalingMethod.rank
      = [[PValue.num (1/2), PValue.num (1/2), PValue.num 1]] := by
  constructor
  · intro col' hcol' v hv
    simp only [normalise, List.mem_map] at hcol'
    obtain ⟨col, hcol, rfl⟩ := hcol'
    obtain ⟨hne, hfin⟩ := h col hcol
    unfold rankCol at hv
    simp only [List.mem_map] at hv
    obtain ⟨r, hr, rfl⟩ := hv
    obtain ⟨x, hxcol, rfl⟩ := hr
    obtain ⟨qx, rfl⟩ := hfin x hxcol
    obtain ⟨rx, hrx, hrx1⟩ := rankOf_num hxcol
    have hranksne : col.map (rankOf col) ≠ [] := by
      simpa using hne
    have hranksfin : ∀ v ∈ col.map (rankOf col), ∃ q, v = PValue.num q := by
      intro v hv
      simp only [List.mem_map] at hv
      obtain ⟨y, hy, rfl⟩ := hv
      obtain ⟨qy, rfl⟩ := hfin y hy
      obtain ⟨ry, hry, _⟩ := rankOf_num hy
      exact ⟨ry, hry⟩
    obtain ⟨M, hM, hMmem⟩ := pcolMax_num_mem hranksne hranksfin
    have hM1 : 1 ≤ M := by
      simp only [List.mem_map] at hMmem
      obtain ⟨y, hy, hyM⟩ := hMmem
      obtain ⟨qy, rfl⟩ := hfin y hy
      obtain ⟨ry, hry, hry1⟩ := rankOf_num hy
      rw [hry] at hyM
      obtain rfl : ry = M := by simpa using hyM
      exact hry1
    have hle : rx ≤ M := by
      have hmemr : rankOf col (PValue.num qx) ∈ col.map (rankOf col) :=
        List.mem_map_of_mem _ hxcol
      rw [hrx] at hmemr
      have := pcolMax_ge hmemr (by simp [PValue.isNan])
      rw [hM] at this
      simpa [vle] using this
    rw [hrx, hM]
    have hM0 : M ≠ 0 := by linarith
    refine ⟨rx / M, by simp [pdiv, hM0], ?_, ?_⟩
    · apply div_pos <;> linarith
    · rw [div_le_one (by linarith)]
      exact hle
  · norm_num [normalise, rankCol, rankOf, pcolMax, pmax2, PValue.isNan, vle, vlt,
      pdiv, List.filter]

/-- C7 witness: instantiating the theorem at the nonempty all-present
column `[10, 10, 30]` gives the tie-averaged result `[0.5, 0.5, 1.0]`. -/
theorem normalise_rank_spec_witness :
    normalise [[PValue.num 10, PValue.num 10, PValue.num 30]] ScalingMethod.rank
      = [[PValue.num (1/2), PValue.num (1/2), PValue.num 1]] :=
  (normalise_rank_spec [[PValue.num 10, PValue.num 10, PValue.num 30]]
    (by
      intro col hcol
      simp only [List.mem_cons, List.not_mem_nil, or_false] at hcol
      subst hcol
      refine ⟨by simp, ?_⟩
      intro v hv
      simp only [List.mem_cons, List.not_mem_nil, or_false] at hv
      rcases hv with rfl | rfl | rfl
      · exact ⟨10, rfl⟩
      · exact ⟨10, rfl⟩
      · exact ⟨30, rfl⟩)).2

/-- On a reset pass every widget value is its data-derived default. -/
theorem zipWith_reset_defaults (widgets : List WidgetSpec)
    (stored : List (Option WidgetVal)) (h : stored.length = widgets.length) :
    List.zipWith (widgetValue true) widgets stored = widgets.map defaultVal := by
  induction widgets generalizing stored with
  | nil => rfl
  | cons w ws ih =>
      cases stored with
      | nil => simp at h
      | cons s ss =>
          simp only [List.zipWith_cons_cons, List.map_cons]
          refine congrArg _ (ih ss ?_)
          simpa using h

/-- C9: a reset action leaves the session flag set; the next rendering
pass consumes it (returning every slider, multiselect and
exclude-missing toggle to its data-derived default, whatever is stored)
and stores the flag back as false; the pass after that is an ordinary
Active pass in which every widget takes its stored value (falling back
to its default), so no single column is ever reset on its own. -/
theorem reset_lifecycle (widgets : List WidgetSpec)
    (stored stored' : List (Option WidgetVal)) (flag : Bool)
    (h : stored.length = widgets.length) :
    (renderPass flag widgets stored true).1 = true
    ∧ renderPass true widgets stored false = (false, widgets.map defaultVal)
    ∧ renderPass false widgets stored' false
        = (false, List.zipWith (fun w st => st.getD (defaultVal w)) widgets stored') := by
  refine ⟨rfl, ?_, rfl⟩
  simp only [renderPass]
  rw [zipWith_reset_defaults widgets stored h]

/-- C9 witness: with one exclude-missing toggle stored `True`, the pass
after a reset returns it to `False`. -/
theorem reset_lifecycle_witness :
    (renderPass true [WidgetSpec.nanToggle] [some (WidgetVal.toggle true)] false).2
      = [WidgetVal.toggle false] := by
  have h := reset_lifecycle [WidgetSpec.nanToggle] [some (WidgetVal.toggle true)]
    [none] true rfl
  rw [h.2.1]
  rfl

/-- C10: a column whose values are all missing passes `is_list_column`
vacuously (`all` over the empty `dropna` result), so when the datetime,
numeric and categorical dtype checks all fail it is classified as a
list column rather than rejected. -/
theorem fully_missing_classified_list (c : PCol)
    (hmiss : ∀ v ∈ c.vals, v = none)
    (h1 : is_datetime_column c = false) (h2 : is_numeric_column c = false)
    (h3 : is_categorical_column c = false) :
    is_list_column c = true ∧ classify c = some SemType.list := by
  have hlist : is_list_column c = true := by
    unfold is_list_column
    rw [List.all_eq_true]
    intro v hv
    rw [List.mem_filterMap] at hv
    obtain ⟨a, ha, hav⟩ := hv
    rw [hmiss a ha] at hav
    simp at hav
  refine ⟨hlist, ?_⟩
  simp [classify, h1, h2, h3, hlist]

/-- C10 witness: an object-dtype column of two missing cells is
classified as a list column. -/
theorem fully_missing_classified_list_witness :
    is_list_column ⟨DType.object, [none, none]⟩ = true
    ∧ classify ⟨DType.object, [none, none]⟩ = some SemType.list :=
  fully_missing_classified_list ⟨DType.object, [none, none]⟩ (by decide)
    (by decide) (by decide) (by decide)

/-!
The round-trip analysis of the default filtering pass (`main`, lines
563-627): each per-column filter at its data-derived defaults keeps
every row, so the pass reduces to the score-range filter applied to the
recomputed score column.
-/

theorem getD_mem_of_lt {α : Type} (l : List α) (i : ℕ) (d : α) (h : i < l.length) :
    l.getD i d ∈ l := by
  rw [List.getD_eq_getElem?_getD, List.getElem?_eq_getElem h, Option.getD_some]
  exact List.getElem_mem h

theorem filterMap_get?_range (l : List PValue) :
    (List.range l.length).filterMap (fun i => l.get? i) = l := by
  induction l with
  | nil => rfl
  | cons x xs ih =>
      have h0 : (x :: xs).get? 0 = some x := rfl
      rw [List.length_cons, List.range_succ_eq_map,
        @List.filterMap_cons_some ℕ PValue (fun i => (x :: xs).get? i) _ _ _ h0,
        List.filterMap_map]
      show x :: List.filterMap (fun i => xs.get? i) (List.range xs.length) = x :: xs
      rw [ih]

/-- Restricting a column to all row indices in order is the identity. -/
theorem restrict_range (vals : List PValue) (n : ℕ) (h : vals.length = n) :
    restrict vals (List.range n) = vals := by
  subst h
  exact filterMap_get?_range vals

/-- One defaulted filter step keeps every row: the full-range slider,
full multiselect and off toggle masks are true everywhere, under the
boundary conditions on datetime and list columns. -/
theorem filterStep_keeps (n : ℕ) (ncs : List (List PValue)) (c : TCol)
    (hlen : c.len = n)
    (hdate : ∀ vals, c = TCol.dcol vals → ∀ x, (some x) ∈ vals →
        ∀ M, colMaxQ vals = some M → x ≤ dateOf M + (minutesPerDay - 1))
    (hlist : ∀ vals, c = TCol.lcol vals → ∀ x, (some x) ∈ vals → x ≠ []) :
    filterStep (List.range n, ncs) c
      = (List.range n,
         ncs ++ match c with | TCol.ncol vals => [vals] | _ => []) := by
  cases c with
  | dcol vals =>
      have hlv : vals.length = n := hlen
      have hfilt : (List.range n).filter (fun i =>
          match vals.getD i none, (colMinQ vals).map dateOf,
              (colMaxQ vals).map dateOf with
          | none, _, _ => true
          | some x, some s, some e => decide (s ≤ x) && decide (x ≤ e + (minutesPerDay - 1))
          | some _, _, _ => false) = List.range n := by
        rw [List.filter_eq_self]
        intro i hi
        have hilt : i < vals.length := hlv ▸ List.mem_range.mp hi
        cases hv : vals.getD i none with
        | none => simp [hv]
        | some x =>
            have hx : some x ∈ vals := hv ▸ getD_mem_of_lt vals i none hilt
            obtain ⟨m, hm⟩ := colMinQ_isSome hx
            obtain ⟨M, hM⟩ := colMaxQ_isSome hx
            simp only [hv, hm, hM, Option.map_some']
            rw [Bool.and_eq_true, decide_eq_true_eq, decide_eq_true_eq]
            constructor
            · calc dateOf m ≤ m := dateOf_le m
                _ ≤ x := colMinQ_le hm hx
            · exact hdate vals rfl x hx M hM
      simp only [filterStep]
      rw [hfilt]
      simp
  | ncol vals =>
      have hlv : vals.length = n := hlen
      have hfilt : (List.range n).filter (fun i =>
          (vle (pcolMin vals) (vals.getD i PValue.nan)
            && vle (vals.getD i PValue.nan) (pcolMax vals))
          || (vals.getD i PValue.nan).isNan) = List.range n := by
        rw [List.filter_eq_self]
        intro i hi
        have hilt : i < vals.length := hlv ▸ List.mem_range.mp hi
        have hvm : vals.getD i PValue.nan ∈ vals := getD_mem_of_lt vals i PValue.nan hilt
        cases hn : (vals.getD i PValue.nan).isNan with
        | true => simp [hn]
        | false =>
            have h1 := pcolMin_le hvm hn
            have h2 := pcolMax_ge hvm hn
            rw [List.getD_eq_getElem?_getD] at h1 h2
            simp [h1, h2]
      simp only [filterStep]
      rw [hfilt]
  | ccol vals =>
      have hlv : vals.length = n := hlen
      have hfilt : (List.range n).filter (fun i =>
          match vals.getD i none with
          | none => true
          | some s => (uniqueVals vals).contains s) = List.range n := by
        rw [List.filter_eq_self]
        intro i hi
        have hilt : i < vals.length := hlv ▸ List.mem_range.mp hi
        cases hv : vals.getD i none with
        | none => simp [hv]
        | some str =>
            have hsm : some str ∈ vals := hv ▸ getD_mem_of_lt vals i none hilt
            have hmemU : str ∈ uniqueVals vals :=
              List.mem_dedup.mpr (List.mem_filterMap.mpr ⟨some str, hsm, rfl⟩)
            simp only [hv]
            exact List.elem_iff.mpr hmemU
      simp only [filterStep]
      rw [hfilt]
      simp
  | lcol vals =>
      have hlv : vals.length = n := hlen
      have hfilt : (List.range n).filter (fun i =>
          match vals.getD i none with
          | none => true
          | some x => (uniqueItems vals).any (fun lbl => x.contains lbl)) = List.range n := by
        rw [List.filter_eq_self]
        intro i hi
        have hilt : i < vals.length := hlv ▸ List.mem_range.mp hi
        cases hv : vals.getD i none with
        | none => simp [hv]
        | some x =>
            have hxm : some x ∈ vals := hv ▸ getD_mem_of_lt vals i none hilt
            have hne := hlist vals rfl x hxm
            obtain ⟨hd, tl, rfl⟩ := List.exists_cons_of_ne_nil hne
            have hdU : hd ∈ uniqueItems vals :=
              List.mem_dedup.mpr (List.mem_flatten.mpr
                ⟨hd :: tl, List.mem_filterMap.mpr ⟨some (hd :: tl), hxm, rfl⟩,
                  List.mem_cons_self _ _⟩)
            simp only [hv]
            rw [List.any_eq_true]
            exact ⟨hd, hdU, List.elem_iff.mpr (List.mem_cons_self _ _)⟩
      simp only [filterStep]
      rw [hfilt]
      simp

/-- The whole per-column filtering loop at defaults keeps every row and
collects exactly the numeric columns, in order. -/
theorem foldl_filterStep_keeps (cols : List TCol) (n : ℕ) (ncs : List (List PValue))
    (hlen : ∀ c ∈ cols, c.len = n)
    (hdate : ∀ vals, TCol.dcol vals ∈ cols → ∀ x, (some x) ∈ vals →
        ∀ M, colMaxQ vals = some M → x ≤ dateOf M + (minutesPerDay - 1))
    (hlist : ∀ vals, TCol.lcol vals ∈ cols → ∀ x, (some x) ∈ vals → x ≠ []) :
    cols.foldl filterStep (List.range n, ncs)
      = (List.range n, ncs ++ cols.filterMap
          (fun c => match c with | TCol.ncol vals => some vals | _ => none)) := by
  induction cols generalizing ncs with
  | nil => simp
  | cons c cs ih =>
      rw [List.foldl_cons,
        filterStep_keeps n ncs c (hlen c (List.mem_cons_self _ _))
          (fun vals hc => hdate vals (hc ▸ List.mem_cons_self _ _))
          (fun vals hc => hlist vals (hc ▸ List.mem_cons_self _ _)),
        ih _ (fun c' hc' => hlen c' (List.mem_cons_of_mem _ hc'))
          (fun vals hv => hdate vals (List.mem_cons_of_mem _ hv))
          (fun vals hv => hlist vals (List.mem_cons_of_mem _ hv))]
      cases c <;> simp [List.filterMap_cons]

/-- C8 counterexample: a table whose placeholder `Score` column is the
constant `[0, 0]` and whose single numeric column is `[0, 10]`.  Every
per-column filter at full defaults keeps both rows, but the recomputed
scores are `[0, 100]` and the score slider default range — taken from
the placeholder column — is `[0, 0]`, so the second row is dropped: the
default pass is not a row-identical round trip. -/
theorem mainFilterDefaults_not_roundtrip :
    mainFilterDefaults ⟨[none, none], [PValue.num 0, PValue.num 0],
      [TCol.ncol [PValue.num 0, PValue.num 10]]⟩ ≠ List.range 2 := by
  have hval : mainFilterDefaults ⟨[none, none], [PValue.num 0, PValue.num 0],
      [TCol.ncol [PValue.num 0, PValue.num 10]]⟩ = [0] := by
    norm_num [mainFilterDefaults, afterColumnFilters, scoreRecomputed, filterStep,
      restrict, update_score_col, normalise, minmaxCol, pcolMin, pcolMax, pmin2,
      pmax2, PValue.isNan, vle, psub, pdiv, pmul, padd, sumSkipNa, List.range_succ,
      List.filterMap_cons, List.filter_cons, List.get?_eq_getElem?, List.getD]
  rw [hval]
  simp [List.range_succ]

/-- C8 (amended): the default filtering pass of `main` returns every row
in order, provided (a) on each datetime column every present timestamp
is at most 23:59 past the maximum timestamp's calendar date (the slider
truncates bounds with `.date()`), (b) every present list-column value is
a nonempty list, and (c) every recomputed score passes the score
slider's default range, which is the `(min, max)` of the input's
placeholder `Score` column.  Each per-column filter at its full default
range or selection keeps every row unconditionally. -/
theorem mainFilterDefaults_roundtrip (t : Table)
    (hlen : ∀ c ∈ t.cols, c.len = t.score.length)
    (hdate : ∀ vals, TCol.dcol vals ∈ t.cols → ∀ x, (some x) ∈ vals →
        ∀ M, colMaxQ vals = some M → x ≤ dateOf M + (minutesPerDay - 1))
    (hlist : ∀ vals, TCol.lcol vals ∈ t.cols → ∀ x, (some x) ∈ vals → x ≠ [])
    (hscore : ∀ s ∈ scoreRecomputed t,
        ((vle (pcolMin t.score) s && vle s (pcolMax t.score)) || s.isNan) = true) :
    mainFilterDefaults t = List.range t.score.length := by
  have hafter : afterColumnFilters t
      = (List.range t.score.length, t.cols.filterMap
          (fun c => match c with | TCol.ncol vals => some vals | _ => none)) := by
    unfold afterColumnFilters
    rw [foldl_filterStep_keeps t.cols t.score.length [] hlen hdate hlist]
    simp
  have hslen : (scoreRecomputed t).length = t.score.length := by
    unfold scoreRecomputed
    rw [hafter]
    simp [update_score_col_length]
  unfold mainFilterDefaults
  rw [hafter]
  show List.map Prod.fst (((List.range t.score.length).zip (scoreRecomputed t)).filter
      (fun p => (vle (pcolMin t.score) p.2 && vle p.2 (pcolMax t.score)) || p.2.isNan))
      = List.range t.score.length
  have hfi : ((List.range t.score.length).zip (scoreRecomputed t)).filter
      (fun p => (vle (pcolMin t.score) p.2 && vle p.2 (pcolMax t.score)) || p.2.isNan)
      = (List.range t.score.length).zip (scoreRecomputed t) := by
    rw [List.filter_eq_self]
    intro p hp
    exact hscore p.2 (List.of_mem_zip hp).2
  rw [hfi]
  apply List.map_fst_zip
  simp [hslen]

/-- C8 witness: with placeholder scores `[0, 100]` (both slider
endpoints present) and a single numeric column `[0, 10]`, the default
pass keeps both rows in order. -/
theorem mainFilterDefaults_roundtrip_witness :
    mainFilterDefaults ⟨[none, none], [PValue.num 0, PValue.num 100],
      [TCol.ncol [PValue.num 0, PValue.num 10]]⟩ = List.range 2 := by
  have hs : scoreRecomputed ⟨[none, none], [PValue.num 0, PValue.num 100],
      [TCol.ncol [PValue.num 0, PValue.num 10]]⟩ = [PValue.num 0, PValue.num 100] := by
    norm_num [scoreRecomputed, afterColumnFilters, filterStep, restrict,
      update_score_col, normalise, minmaxCol, pcolMin, pcolMax, pmin2, pmax2,
      PValue.isNan, vle, psub, pdiv, pmul, padd, sumSkipNa, List.range_succ,
      List.filterMap_cons, List.filter_cons, List.get?_eq_getElem?, List.getD]
  exact mainFilterDefaults_roundtrip _
    (by
      intro c hc
      simp only [List.mem_cons, List.not_mem_nil, or_false] at hc
      subst hc
      rfl)
    (by
      intro vals hmem
      simp at hmem)
    (by
      intro vals hmem
      simp at hmem)
    (by
      rw [hs]
      intro sc hsc
      simp only [List.mem_cons, List.not_mem_nil, or_false] at hsc
      rcases hsc with rfl | rfl <;>
        norm_num [pcolMin, pcolMax, pmin2, pmax2, PValue.isNan, vle])

end OpenESM
